import Mathlib

/-!
Verification of the cool-rag document synchronization, chunking/embedding and
retrieval engine against its specification.

The repository's visible sources are the React frontend
(`frontend/src/components/*.jsx`, `frontend/src/apis/*.ts`), the database
schema (`backend/db_scripts/init_db.sql`, a pgvector `document_chunks` table
with an HNSW cosine index) and the backend start script.  The Python backend
(FastAPI services for sync, chunking, embedding, vector search and
conversations) is not part of the visible sources, so those components are
modelled here from the specification; the frontend components are embedded
from their JavaScript/TypeScript sources.
-/

namespace CoolRag

/-! ## Data model

Mirrors the `document_chunks` table of `backend/db_scripts/init_db.sql`
(content, embedding vector, source_file, heading_path, chunk_index) and the
Document rows of the spec's data model.  Embedding vectors are modelled as
rational lists. -/

/-- A chunk row, as laid out in `init_db.sql` (`document_chunks`): content,
fixed-dimension embedding, owning source file, heading breadcrumb and
zero-based position within the document. -/
structure Chunk where
  content : String
  embedding : List ℚ
  source_file : String
  heading_path : String
  chunk_index : ℕ
deriving DecidableEq, Repr

/-- One search hit: a chunk together with its similarity score. -/
structure SearchResult where
  chunk : Chunk
  score : ℚ
deriving DecidableEq, Repr

/-! ## Vector store gateway: search (spec §4.4)

Modelled from the spec: the backend vector store gateway is not among the
visible sources (only the pgvector schema and its cosine-similarity HNSW
index are).  `search` filters stored chunks by a similarity threshold, orders
them descending by score with ties broken by `chunk_index` ascending then
`source_file` lexicographic, and keeps at most `top_k`.  The similarity
function is a parameter: the contract does not depend on the cosine
formula. -/

/-- Tie-break order between chunks of equal score: `chunk_index` ascending,
then `source_file` lexicographic. -/
def tieLE (a b : Chunk) : Prop :=
  a.chunk_index < b.chunk_index ∨
    (a.chunk_index = b.chunk_index ∧ a.source_file ≤ b.source_file)

/-- Result order of `search`: descending by score, ties broken by `tieLE`. -/
def rankLE (a b : SearchResult) : Prop :=
  b.score < a.score ∨ (a.score = b.score ∧ tieLE a.chunk b.chunk)

instance : DecidableRel tieLE := fun a b => by
  unfold tieLE; exact inferInstance

instance : DecidableRel rankLE := fun a b => by
  unfold rankLE; exact inferInstance

theorem tieLE_total (a b : Chunk) : tieLE a b ∨ tieLE b a := by
  unfold tieLE
  rcases lt_trichotomy a.chunk_index b.chunk_index with h | h | h
  · exact Or.inl (Or.inl h)
  · rcases le_total a.source_file b.source_file with hs | hs
    · exact Or.inl (Or.inr ⟨h, hs⟩)
    · exact Or.inr (Or.inr ⟨h.symm, hs⟩)
  · exact Or.inr (Or.inl h)

theorem tieLE_trans {a b c : Chunk} (hab : tieLE a b) (hbc : tieLE b c) :
    tieLE a c := by
  unfold tieLE at *
  rcases hab with h1 | ⟨h1, hs1⟩ <;> rcases hbc with h2 | ⟨h2, hs2⟩
  · exact Or.inl (h1.trans h2)
  · exact Or.inl (h2 ▸ h1)
  · exact Or.inl (h1 ▸ h2)
  · exact Or.inr ⟨h1.trans h2, hs1.trans hs2⟩

instance : IsTotal SearchResult rankLE where
  total a b := by
    unfold rankLE
    rcases lt_trichotomy a.score b.score with h | h | h
    · exact Or.inr (Or.inl h)
    · rcases tieLE_total a.chunk b.chunk with ht | ht
      · exact Or.inl (Or.inr ⟨h, ht⟩)
      · exact Or.inr (Or.inr ⟨h.symm, ht⟩)
    · exact Or.inl (Or.inl h)

instance : IsTrans SearchResult rankLE where
  trans a b c hab hbc := by
    unfold rankLE at *
    rcases hab with h1 | ⟨h1, ht1⟩ <;> rcases hbc with h2 | ⟨h2, ht2⟩
    · exact Or.inl (h2.trans h1)
    · exact Or.inl (h2 ▸ h1)
    · exact Or.inl (h1 ▸ h2)
    · exact Or.inr ⟨h1.trans h2, tieLE_trans ht1 ht2⟩

/-- Modelled from the spec (§4.4, `search`): score every stored chunk against
the query with the similarity function `sim`, keep those at or above the
threshold `t`, sort them descending by score (ties by `chunk_index` then
`source_file`) and return at most `k`. -/
def search (sim : List ℚ → List ℚ → ℚ) (store : List Chunk) (q : List ℚ)
    (k : ℕ) (t : ℚ) : List SearchResult :=
  (List.insertionSort rankLE
    (((store.map fun c => SearchResult.mk c (sim q c.embedding))).filter
      fun r => decide (t ≤ r.score))).take k

/-- C1: `search(q, K, t)` returns at most `K` results, every returned score is
at least `t`, results are sorted by `rankLE` (descending score, ties by
`chunk_index` ascending then `source_file` lexicographic), and when no stored
chunk clears the threshold the result is the empty list rather than an
error. -/
theorem search_contract (sim : List ℚ → List ℚ → ℚ) (store : List Chunk)
    (q : List ℚ) (k : ℕ) (t : ℚ) :
    (search sim store q k t).length ≤ k ∧
    (∀ r ∈ search sim store q k t, t ≤ r.score) ∧
    (search sim store q k t).Sorted rankLE ∧
    ((∀ c ∈ store, sim q c.embedding < t) → search sim store q k t = []) := by
  refine ⟨List.length_take_le _ _, ?_, ?_, ?_⟩
  · intro r hr
    have hr1 : r ∈ List.insertionSort rankLE
        (((store.map fun c => SearchResult.mk c (sim q c.embedding))).filter
          fun r => decide (t ≤ r.score)) := List.mem_of_mem_take hr
    rw [List.mem_insertionSort] at hr1
    exact of_decide_eq_true (List.mem_filter.mp hr1).2
  · exact List.Pairwise.sublist (List.take_sublist _ _)
      (List.sorted_insertionSort rankLE _)
  · intro hall
    have hnil : ((store.map fun c => SearchResult.mk c (sim q c.embedding))).filter
        (fun r => decide (t ≤ r.score)) = [] := by
      rw [List.filter_eq_nil_iff]
      intro r hr
      rcases List.mem_map.mp hr with ⟨c, hc, rfl⟩
      simpa using not_le.mpr (hall c hc)
    rw [search, hnil]
    simp [List.insertionSort]

/-! ## Vector store gateway: transactional upsert (spec §4.4, §7)

Modelled from the spec: the backend upsert code is not among the visible
sources; `init_db.sql` only declares the `document_chunks` table and its
`source_file` index used for the per-document replace.  `upsert_chunks`
replaces the whole chunk set of one source file in a single transaction:
either it commits the full replacement, or it rolls back and the previous
store is untouched. -/

/-- Chunks of the store belonging to one source file. -/
def chunksOf (s : List Chunk) (f : String) : List Chunk :=
  s.filter fun c => decide (c.source_file = f)

/-- Replacement of the chunk set of `f`: delete every existing chunk of `f`,
then insert the new set. -/
def replaceChunks (s : List Chunk) (f : String) (new : List Chunk) : List Chunk :=
  (s.filter fun c => decide (c.source_file ≠ f)) ++ new

/-- Outcome of a transactional upsert: the store after a commit, or the store
after a rollback. -/
inductive UpsertResult where
  | committed (store : List Chunk)
  | rolledBack (store : List Chunk)
deriving DecidableEq, Repr

/-- Modelled from the spec (§4.4 `upsert_chunks`, §7): run the delete-insert
replacement of `f` as one transaction.  `txnFails` stands for the vector
store reporting a transactional failure; in that case the transaction rolls
back and the previous store is kept. -/
def upsert_chunks (txnFails : Bool) (s : List Chunk) (f : String)
    (new : List Chunk) : UpsertResult :=
  if txnFails then .rolledBack s else .committed (replaceChunks s f new)

/-- C2: a committed `upsert_chunks` leaves `f` with exactly the new chunk set
(no chunk of a previous version of `f` survives) and every other file's
chunks untouched; a rolled-back `upsert_chunks` leaves the previous store
fully intact. -/
theorem upsert_chunks_atomic (txnFails : Bool) (s : List Chunk) (f : String)
    (new : List Chunk) (hnew : ∀ c ∈ new, c.source_file = f) :
    (∀ s2, upsert_chunks txnFails s f new = .committed s2 →
      chunksOf s2 f = new ∧ ∀ g, g ≠ f → chunksOf s2 g = chunksOf s g) ∧
    (∀ s2, upsert_chunks txnFails s f new = .rolledBack s2 → s2 = s) := by
  constructor
  · intro s2 hc
    cases txnFails with
    | true => simp [upsert_chunks] at hc
    | false =>
      simp only [upsert_chunks, Bool.false_eq_true, if_false,
        UpsertResult.committed.injEq] at hc
      subst hc
      constructor
      · rw [chunksOf, replaceChunks, List.filter_append, List.filter_filter]
        have h1 : (s.filter fun c =>
            decide (c.source_file = f) && decide (c.source_file ≠ f)) = [] := by
          rw [List.filter_eq_nil_iff]
          intro c _
          by_cases hcf : c.source_file = f <;> simp [hcf]
        have h2 : (new.filter fun c => decide (c.source_file = f)) = new := by
          rw [List.filter_eq_self]
          intro c hc2
          simpa using hnew c hc2
        rw [h1, h2, List.nil_append]
      · intro g hg
        rw [chunksOf, chunksOf, replaceChunks, List.filter_append,
          List.filter_filter]
        have h1 : (new.filter fun c => decide (c.source_file = g)) = [] := by
          rw [List.filter_eq_nil_iff]
          intro c hc2
          simp only [hnew c hc2, decide_eq_true_eq]
          exact fun h => hg h.symm
        have h2 : (s.filter fun c =>
            decide (c.source_file = g) && decide (c.source_file ≠ f)) =
            s.filter fun c => decide (c.source_file = g) := by
          apply List.filter_congr
          intro c _
          by_cases hcg : c.source_file = g
          · simp only [hcg, decide_True, Bool.true_and, ne_eq, decide_not]
            simp [hg]
          · simp [hcg]
        rw [h1, h2, List.append_nil]
  · intro s2 hr
    cases txnFails with
    | true => simpa [upsert_chunks] using hr.symm
    | false => simp [upsert_chunks] at hr

/-- Witness for C2 at a concrete store: replacing the chunks of `a.md` in a
two-file store. -/
theorem upsert_chunks_atomic_witness :
    (∀ s2, upsert_chunks false
        [Chunk.mk "old a" [1] "a.md" "" 0, Chunk.mk "b text" [2] "b.md" "" 0]
        "a.md" [Chunk.mk "new a" [3] "a.md" "H" 0] = .committed s2 →
      chunksOf s2 "a.md" = [Chunk.mk "new a" [3] "a.md" "H" 0] ∧
      ∀ g, g ≠ "a.md" → chunksOf s2 g = chunksOf
        [Chunk.mk "old a" [1] "a.md" "" 0, Chunk.mk "b text" [2] "b.md" "" 0] g) ∧
    (∀ s2, upsert_chunks false
        [Chunk.mk "old a" [1] "a.md" "" 0, Chunk.mk "b text" [2] "b.md" "" 0]
        "a.md" [Chunk.mk "new a" [3] "a.md" "H" 0] = .rolledBack s2 →
      s2 = [Chunk.mk "old a" [1] "a.md" "" 0, Chunk.mk "b text" [2] "b.md" "" 0]) :=
  upsert_chunks_atomic false _ "a.md" _ (by
    intro c hc
    simp only [List.mem_singleton] at hc
    rw [hc])

/-! ## Sync engine (spec §4.1)

Modelled from the spec: the backend sync engine is not among the visible
sources.  A document row keeps the filename, the fingerprint of the
last-indexed content (`none` until the file is first indexed — sync only does
status bookkeeping, the hash is written by reindex) and the displayed status.
`syncDocs` enumerates the files on disk, classifies each against the stored
hash, and marks stored rows whose file is gone as `deleted`. -/

/-- Document status as displayed by the UI (`DocumentList` badges). -/
inductive Status where
  | new
  | modified
  | indexed
  | deleted
deriving DecidableEq, Repr

/-- One persisted document row. -/
structure DocRow where
  filename : String
  content_hash : Option ℕ
  status : Status
deriving DecidableEq, Repr

/-- Modelled from the spec (§2 Content Hasher): a stable fingerprint of a
document's content, here a polynomial hash of its characters. -/
def contentHash (s : String) : ℕ :=
  s.data.foldl (fun h c => h * 131 + c.toNat) 7

/-- Stored fingerprint for filename `f`: the hash of the first row for `f`,
`none` when there is no row or the row was never indexed. -/
def storedHash (docs : List DocRow) (f : String) : Option ℕ :=
  (docs.find? fun r => decide (r.filename = f)).bind DocRow.content_hash

/-- Classification of an on-disk document from the stored fingerprint and the
current content hash (spec §4.1): no stored hash is `new`, a matching hash is
`indexed`, a differing hash is `modified`. -/
def classifyHash (stored : Option ℕ) (current : ℕ) : Status :=
  match stored with
  | none => .new
  | some h => if h = current then .indexed else .modified

/-- Whether a filename is present in the enumerated document directory. -/
def onDisk (fs : List (String × String)) (f : String) : Bool :=
  fs.any fun p => decide (p.1 = f)

/-- Row written by sync for the on-disk file `p = (filename, content)`: the
stored fingerprint is kept, the status recomputed. -/
def diskRow (docs : List DocRow) (p : String × String) : DocRow :=
  { filename := p.1
    content_hash := storedHash docs p.1
    status := classifyHash (storedHash docs p.1) (contentHash p.2) }

/-- Soft delete: keep the row, set the status to `deleted`. -/
def markDeleted (r : DocRow) : DocRow :=
  { r with status := .deleted }

/-- Modelled from the spec (§4.1 `sync`): one reconciliation pass over the
document directory `fs` against the stored rows `docs`. -/
def syncDocs (fs : List (String × String)) (docs : List DocRow) : List DocRow :=
  fs.map (diskRow docs) ++
    (docs.filter fun r => !onDisk fs r.filename).map markDeleted

/-- Observable side effects of the indexing pipeline. -/
inductive SideEffect where
  | chunkMutation (source_file : String)
  | embedCall (text : String)
deriving DecidableEq, Repr

/-- The persisted store: document rows plus the chunk table. -/
structure IndexStore where
  docs : List DocRow
  chunks : List Chunk
deriving DecidableEq, Repr

/-- Modelled from the spec (§4.1): sync updates status bookkeeping only — it
touches no chunk and performs no chunking or embedding call. -/
def sync (fs : List (String × String)) (s : IndexStore) :
    IndexStore × List SideEffect :=
  ({ docs := syncDocs fs s.docs, chunks := s.chunks }, [])

theorem classifyHash_ne_deleted (o : Option ℕ) (h : ℕ) :
    classifyHash o h ≠ Status.deleted := by
  cases o with
  | none => simp [classifyHash]
  | some v =>
    simp only [classifyHash]
    split <;> simp

theorem storedHash_syncDocs (fs : List (String × String)) (docs : List DocRow)
    (f : String) (hf : onDisk fs f = true) :
    storedHash (syncDocs fs docs) f = storedHash docs f := by
  unfold storedHash syncDocs
  rw [List.find?_append, List.find?_map]
  have hcomp : ((fun r => decide (r.filename = f)) ∘ diskRow docs) =
      fun p : String × String => decide (p.1 = f) := by
    funext p; rfl
  rw [hcomp]
  obtain ⟨q, hq⟩ := Option.isSome_iff_exists.mp
    (List.find?_isSome.mpr (List.any_eq_true.mp hf))
  have hq1 : q.1 = f := by
    have hq2 := List.find?_some hq
    simpa using hq2
  rw [hq]
  show DocRow.content_hash (diskRow docs q) = _
  show storedHash docs q.1 = _
  rw [hq1]
  rfl

theorem syncDocs_idem (fs : List (String × String)) (docs : List DocRow) :
    syncDocs fs (syncDocs fs docs) = syncDocs fs docs := by
  have hmap : fs.map (diskRow (syncDocs fs docs)) = fs.map (diskRow docs) := by
    apply List.map_congr_left
    intro p hp
    have hd : onDisk fs p.1 = true :=
      List.any_eq_true.mpr ⟨p, hp, by simp⟩
    unfold diskRow
    rw [storedHash_syncDocs fs docs p.1 hd]
  have hfil : ((syncDocs fs docs).filter fun r => !onDisk fs r.filename) =
      (docs.filter fun r => !onDisk fs r.filename).map markDeleted := by
    unfold syncDocs
    rw [List.filter_append]
    have h1 : ((fs.map (diskRow docs)).filter fun r => !onDisk fs r.filename)
        = [] := by
      rw [List.filter_eq_nil_iff]
      intro r hr
      obtain ⟨p, hp, rfl⟩ := List.mem_map.mp hr
      have hd : onDisk fs (diskRow docs p).filename = true :=
        List.any_eq_true.mpr ⟨p, hp, by simp [diskRow]⟩
      simp [hd]
    have h2 : (((docs.filter fun r => !onDisk fs r.filename).map
          markDeleted).filter fun r => !onDisk fs r.filename) =
        (docs.filter fun r => !onDisk fs r.filename).map markDeleted := by
      rw [List.filter_eq_self]
      intro r hr
      obtain ⟨r0, hr0, rfl⟩ := List.mem_map.mp hr
      simpa [markDeleted] using (List.mem_filter.mp hr0).2
    rw [h1, h2, List.nil_append]
  calc syncDocs fs (syncDocs fs docs)
      = fs.map (diskRow (syncDocs fs docs)) ++
          ((syncDocs fs docs).filter fun r => !onDisk fs r.filename).map
            markDeleted := rfl
    _ = fs.map (diskRow docs) ++
          (((docs.filter fun r => !onDisk fs r.filename).map markDeleted).map
            markDeleted) := by rw [hmap, hfil]
    _ = fs.map (diskRow docs) ++
          ((docs.filter fun r => !onDisk fs r.filename).map markDeleted) := by
        rw [List.map_map]
        rfl
    _ = syncDocs fs docs := rfl

/-- C4: sync is idempotent — a second pass with no filesystem change produces
the identical store (identical statuses), performs no side effect, and sync
never mutates the chunk table. -/
theorem sync_idempotent (fs : List (String × String)) (s : IndexStore) :
    (sync fs (sync fs s).1).1 = (sync fs s).1 ∧
    (sync fs (sync fs s).1).2 = [] ∧
    (sync fs s).1.chunks = s.chunks := by
  refine ⟨?_, rfl, rfl⟩
  show IndexStore.mk (syncDocs fs (syncDocs fs s.docs)) s.chunks =
    IndexStore.mk (syncDocs fs s.docs) s.chunks
  rw [syncDocs_idem]

/-- C3 (amended): after a sync pass, an on-disk document's row is `new` iff no
stored hash exists, `modified` iff a stored hash exists and differs from the
current content hash, `indexed` iff the stored hash equals the current hash;
and a row of the pass is `deleted` iff its file is absent from the
enumerated directory and it descends from a stored row.  (The presence
qualifier on the `new`/`modified` cases is what the counterexample forces.) -/
theorem sync_status_classification (fs : List (String × String))
    (docs : List DocRow) :
    (∀ p ∈ fs,
      ((diskRow docs p).status = Status.new ↔ storedHash docs p.1 = none) ∧
      ((diskRow docs p).status = Status.modified ↔
        ∃ h, storedHash docs p.1 = some h ∧ h ≠ contentHash p.2) ∧
      ((diskRow docs p).status = Status.indexed ↔
        storedHash docs p.1 = some (contentHash p.2)) ∧
      diskRow docs p ∈ syncDocs fs docs) ∧
    (∀ r ∈ syncDocs fs docs,
      (r.status = Status.deleted ↔
        onDisk fs r.filename = false ∧
          ∃ r0 ∈ docs, r0.filename = r.filename)) := by
  constructor
  · intro p hp
    refine ⟨?_, ?_, ?_, ?_⟩
    · show classifyHash (storedHash docs p.1) (contentHash p.2) = _ ↔ _
      cases hs : storedHash docs p.1 with
      | none => simp [classifyHash]
      | some v =>
        simp only [classifyHash]
        split <;> simp
    · show classifyHash (storedHash docs p.1) (contentHash p.2) = _ ↔ _
      cases hs : storedHash docs p.1 with
      | none => simp [classifyHash]
      | some v =>
        simp only [classifyHash]
        split <;> simp_all
    · show classifyHash (storedHash docs p.1) (contentHash p.2) = _ ↔ _
      cases hs : storedHash docs p.1 with
      | none => simp [classifyHash]
      | some v =>
        simp only [classifyHash]
        split <;> simp_all
    · exact List.mem_append_left _ (List.mem_map.mpr ⟨p, hp, rfl⟩)
  · intro r hr
    rcases List.mem_append.mp hr with hdisk | hdel
    · obtain ⟨p, hp, rfl⟩ := List.mem_map.mp hdisk
      constructor
      · intro habs
        exact absurd habs (classifyHash_ne_deleted _ _)
      · rintro ⟨hoff, -⟩
        have hd : onDisk fs (diskRow docs p).filename = true :=
          List.any_eq_true.mpr ⟨p, hp, by simp [diskRow]⟩
        rw [hd] at hoff
        cases hoff
    · obtain ⟨r0, hr0, rfl⟩ := List.mem_map.mp hdel
      have hmem := List.mem_filter.mp hr0
      constructor
      · intro _
        refine ⟨?_, r0, hmem.1, rfl⟩
        simpa [markDeleted] using hmem.2
      · intro _
        rfl

/-- Counterexample to C1's sibling claim C3 as literally stated: a stored row
with no fingerprint whose file is absent.  After the sync pass its status is
`deleted`, yet "no stored hash exists" holds, so the unqualified biconditional
"status is `new` iff no stored hash exists" fails. -/
theorem sync_status_claim_counterexample :
    ∃ r ∈ syncDocs [] [DocRow.mk "a.md" none Status.new],
      r.content_hash = none ∧ r.status ≠ Status.new := by
  refine ⟨DocRow.mk "a.md" none Status.deleted, ?_, rfl, by simp⟩
  show DocRow.mk "a.md" none Status.deleted ∈
    syncDocs [] [DocRow.mk "a.md" none Status.new]
  decide

/-! ## Chunker (spec §4.2)

Modelled from the spec: the backend chunker is not among the visible sources.
Configuration is a target chunk size and an overlap (`CHUNK_SIZE=800`,
`CHUNK_OVERLAP=150` in the README); each chunk after the first starts
`size - overlap` characters after its predecessor, so it repeats the trailing
`overlap` characters of the previous chunk; the final chunk runs to the end
of the document. -/

/-- Modelled from the spec (§4.2 `chunk`): split a character list into chunks
of `size` characters whose starts advance by `size - overlap`.  An empty
document yields no chunk; a document of at most `size` characters (or a
degenerate configuration with `overlap ≥ size`) yields the single chunk that
is the whole document. -/
def chunkText (size overlap : ℕ) (s : List Char) : List (List Char) :=
  if s.isEmpty then []
  else if s.length ≤ size ∨ size ≤ overlap then [s]
  else s.take size :: chunkText size overlap (s.drop (size - overlap))
termination_by s.length
decreasing_by
  rename_i hne hbig
  rw [not_or, not_le, not_le] at hbig
  rw [List.length_drop]
  have hlen : 0 < s.length := by
    cases s with
    | nil => simp at hne
    | cons a l => simp
  omega

theorem chunkText_2000 (s : List Char) (hs : s.length = 2000) :
    chunkText 800 150 s = [s.take 800, (s.drop 650).take 800, s.drop 1300] := by
  have h1 : s.isEmpty = false := by
    cases hc : s with
    | nil => rw [hc] at hs; simp at hs
    | cons a l => rfl
  have h2 : (s.drop 650).length = 1350 := by
    rw [List.length_drop, hs]
  have h2e : (s.drop 650).isEmpty = false := by
    cases hc : s.drop 650 with
    | nil => rw [hc] at h2; simp at h2
    | cons a l => rfl
  have hdd : (s.drop 650).drop 650 = s.drop 1300 := by
    rw [List.drop_drop]
  have h3 : (s.drop 1300).length = 700 := by
    rw [List.length_drop, hs]
  have h3e : (s.drop 1300).isEmpty = false := by
    cases hc : s.drop 1300 with
    | nil => rw [hc] at h3; simp at h3
    | cons a l => rfl
  rw [chunkText, if_neg (by simp [h1]), if_neg (by rw [hs]; omega)]
  rw [show (800 : ℕ) - 150 = 650 from rfl]
  rw [chunkText, if_neg (by simp [h2e]), if_neg (by rw [h2]; omega)]
  rw [show (800 : ℕ) - 150 = 650 from rfl, hdd]
  rw [chunkText, if_neg (by simp [h3e]),
    if_pos (Or.inl (by rw [h3]; norm_num))]

/-- C6: chunking shape — an empty document yields the empty sequence, a
document no longer than one chunk yields exactly that one chunk with no
overlap applied, and a 2000-character document with chunk size 800 and
overlap 150 yields exactly 3 chunks, each repeating the trailing 150
characters of its predecessor at its start. -/
theorem chunkText_spec (size overlap : ℕ) (s : List Char) :
    chunkText size overlap [] = [] ∧
    (s ≠ [] → s.length ≤ size → chunkText size overlap s = [s]) ∧
    (s.length = 2000 →
      chunkText 800 150 s =
        [s.take 800, (s.drop 650).take 800, s.drop 1300] ∧
      (chunkText 800 150 s).length = 3 ∧
      (s.take 800).drop (800 - 150) = ((s.drop 650).take 800).take 150 ∧
      ((s.drop 650).take 800).drop (800 - 150) = (s.drop 1300).take 150) := by
  refine ⟨by rw [chunkText]; rfl, ?_, ?_⟩
  · intro hne hle
    rw [chunkText, if_neg (by simpa using hne), if_pos (Or.inl hle)]
  · intro hs
    refine ⟨chunkText_2000 s hs, by rw [chunkText_2000 s hs]; rfl, ?_, ?_⟩
    · rw [show (800 : ℕ) - 150 = 650 from rfl, List.drop_take,
        List.take_take]
      norm_num
    · rw [show (800 : ℕ) - 150 = 650 from rfl, List.drop_take,
        List.drop_drop]

/-! ## Embedding client adapter (spec §4.3)

Modelled from the spec: the backend embedding client is not among the visible
sources.  The external capability is a function from one text to either a
vector or a non-retryable error (the bounded retry loop is already folded
into it, per §4.3 transient failures are retried before a result is
returned).  `embed` maps a batch through it, keeping input order, and fails
the whole batch on the first error. -/

/-- Modelled from the spec (§4.3 `embed`): embed an ordered batch of texts;
any text that fails fails the whole batch, otherwise the vectors come back in
input order. -/
def embed (f : String → Except String (List ℚ)) :
    List String → Except String (List (List ℚ))
  | [] => .ok []
  | t :: ts =>
    match f t with
    | .error e => .error e
    | .ok v =>
      match embed f ts with
      | .error e => .error e
      | .ok vs => .ok (v :: vs)

/-- C7: a successful `embed` returns exactly one vector per input text, in
input order (the result is the pointwise image of the batch, so every text
was embedded); and if any text of the batch fails, the whole batch fails —
a partial embedding is never returned. -/
theorem embed_batch (f : String → Except String (List ℚ))
    (texts : List String) :
    (∀ vs, embed f texts = .ok vs →
      vs.length = texts.length ∧
      (∀ t ∈ texts, ∃ v, f t = .ok v) ∧
      vs = texts.map fun t => ((f t).toOption).getD []) ∧
    ((∃ t ∈ texts, ∃ e, f t = .error e) → ∃ e, embed f texts = .error e) := by
  induction texts with
  | nil =>
    constructor
    · intro vs hvs
      simp only [embed] at hvs
      cases hvs
      simp
    · rintro ⟨t, ht, -⟩
      simp at ht
  | cons t ts ih =>
    constructor
    · intro vs hvs
      simp only [embed] at hvs
      cases hft : f t with
      | error e => rw [hft] at hvs; cases hvs
      | ok v =>
        rw [hft] at hvs
        cases hrec : embed f ts with
        | error e => rw [hrec] at hvs; cases hvs
        | ok ws =>
          rw [hrec] at hvs
          cases hvs
          obtain ⟨hlen, hall, hmap⟩ := ih.1 ws hrec
          refine ⟨by simp [hlen], ?_, ?_⟩
          · intro u hu
            rcases List.mem_cons.mp hu with rfl | hu2
            · exact ⟨v, hft⟩
            · exact hall u hu2
          · simp only [List.map_cons, hft]
            rw [← hmap]
            rfl
    · rintro ⟨u, hu, e, he⟩
      rcases List.mem_cons.mp hu with rfl | hu2
      · refine ⟨e, ?_⟩
        simp only [embed, he]
      · cases hft : f t with
        | error e2 =>
          refine ⟨e2, ?_⟩
          simp only [embed, hft]
        | ok v =>
          obtain ⟨e3, he3⟩ := ih.2 ⟨u, hu2, e, he⟩
          refine ⟨e3, ?_⟩
          simp only [embed, hft, he3]

/-! ## Selective reindex (spec §4.7)

Modelled from the spec: the backend handler behind
`POST /api/reindex/selective` is not among the visible sources; the frontend
calls it in `documents.ts` (`reindexDocuments`) and displays the returned
`{message, reindexed_count, failed_count}` in `DocumentList.handleReindex`.
Per-file processing is a best-effort batch: each named file either reindexes
or fails, and a failure never aborts the rest. -/

/-- Aggregate report of a selective reindex, as the frontend consumes it. -/
structure ReindexReport where
  message : String
  reindexed_count : ℕ
  failed_count : ℕ
deriving DecidableEq, Repr

/-- Modelled from the spec (§4.7 `reindex_selective`): process every named
file in order; `ok` tells whether reindexing that file succeeds.  A failed
file increments `failed_count` and processing continues with the rest. -/
def reindexSelective (ok : String → Bool) : List String → ReindexReport
  | [] => { message := "Reindex completed", reindexed_count := 0, failed_count := 0 }
  | fname :: rest =>
    let r := reindexSelective ok rest
    if ok fname then { r with reindexed_count := r.reindexed_count + 1 }
    else { r with failed_count := r.failed_count + 1 }

/-- C8: `reindex_selective` returns an aggregate report rather than throwing:
`reindexed_count` counts exactly the files that succeeded, `failed_count`
exactly the files that failed, and the two always sum to the number of named
files — every file is processed even when an earlier one fails. -/
theorem reindex_selective_report (ok : String → Bool) (files : List String) :
    (reindexSelective ok files).reindexed_count = (files.filter ok).length ∧
    (reindexSelective ok files).failed_count =
      (files.filter fun x => !ok x).length ∧
    (reindexSelective ok files).reindexed_count +
      (reindexSelective ok files).failed_count = files.length := by
  induction files with
  | nil => exact ⟨rfl, rfl, rfl⟩
  | cons fname rest ih =>
    obtain ⟨h1, h2, h3⟩ := ih
    by_cases hok : ok fname = true
    · simp only [reindexSelective, hok, if_pos, List.filter_cons,
        Bool.not_true, List.length_cons]
      refine ⟨by simpa using h1, by simpa using h2, by omega⟩
    · rw [Bool.not_eq_true] at hok
      simp only [reindexSelective, hok, Bool.false_eq_true, if_false,
        List.filter_cons, Bool.not_false, List.length_cons]
      refine ⟨by simpa using h1, by simpa using h2, by omega⟩

/-! ## Conversation store (spec §4.6, data model Conversation)

Modelled from the spec: the backend conversation store behind
`POST /api/chat` and `DELETE /api/chat/:id` (`frontend/src/apis/chat.ts`) is
not among the visible sources.  The server keeps per-conversation turn
history keyed by an opaque identifier, generates a fresh identifier on a
first turn with no id, appends turns on subsequent turns, and drops the
history on an explicit clear. -/

/-- Role of a conversation turn. -/
inductive Role where
  | user
  | assistant
deriving DecidableEq, Repr

/-- One turn of a conversation. -/
structure Turn where
  role : Role
  content : String
deriving DecidableEq, Repr

/-- Server-side conversation state: histories keyed by identifier, plus the
generator counter for fresh identifiers. -/
structure ServerState where
  convs : List (String × List Turn)
  counter : ℕ
deriving DecidableEq, Repr

/-- Opaque identifier generated for the `n`-th conversation; always
non-empty. -/
def freshId (n : ℕ) : String :=
  String.mk (List.replicate (n + 1) 'c')

/-- History stored under an identifier; empty when the identifier is
unknown. -/
def historyOf (st : ServerState) (id : String) : List Turn :=
  ((st.convs.find? fun q => decide (q.1 = id)).map Prod.snd).getD []

/-- Whether the server currently holds a conversation under `id`. -/
def hasConv (st : ServerState) (id : String) : Bool :=
  st.convs.any fun q => decide (q.1 = id)

/-- Modelled from the spec (§4.6, Conversation lifecycle): handle one chat
turn.  With no identifier a fresh one is generated and a new conversation is
created; with an identifier the turn is appended to whatever history is
stored under it (the empty history when none is), never an error. -/
def chatTurn (st : ServerState) (cid : Option String) (msg answer : String) :
    ServerState × String :=
  match cid with
  | none =>
    let id := freshId st.counter
    ({ convs := (id, [Turn.mk .user msg, Turn.mk .assistant answer]) :: st.convs
       counter := st.counter + 1 }, id)
  | some id =>
    ({ convs := (id, historyOf st id ++
          [Turn.mk .user msg, Turn.mk .assistant answer]) ::
        (st.convs.filter fun q => !decide (q.1 = id))
       counter := st.counter }, id)

/-- Modelled from the spec (`DELETE /api/chat/:id`): drop the history stored
under `id`. -/
def clearConv (st : ServerState) (id : String) : ServerState :=
  { st with convs := st.convs.filter fun q => !decide (q.1 = id) }

theorem freshId_injective {m n : ℕ} (h : freshId m = freshId n) : m = n := by
  have hlen := congrArg (fun s => s.data.length) h
  simpa [freshId] using hlen

theorem historyOf_cons_self (st : ServerState) (id : String) (h : List Turn)
    (n : ℕ) : historyOf ⟨(id, h) :: st.convs, n⟩ id = h := by
  simp [historyOf, List.find?_cons]

theorem historyOf_filter_out (st : ServerState) (id : String) :
    historyOf (clearConv st id) id = [] := by
  unfold historyOf clearConv
  have hnone : ((st.convs.filter fun q => !decide (q.1 = id)).find?
      fun q => decide (q.1 = id)) = none := by
    rw [List.find?_eq_none]
    intro q hq
    have := (List.mem_filter.mp hq).2
    simpa using this
  simp [hnone]

/-- C5: the per-conversation state machine.  A turn with no identifier
returns a non-empty identifier not previously held by the server and creates
its two-turn history (absent to active); a turn with an identifier appends to
that conversation's history (active to active); after an explicit clear, a
turn reusing the old identifier starts from the empty history — fresh
context, not an error. -/
theorem conversation_lifecycle (st : ServerState) (msg answer m2 a2 : String)
    (hwf : ∀ q ∈ st.convs, ∃ k, k < st.counter ∧ q.1 = freshId k) :
    ((chatTurn st none msg answer).2 ≠ "" ∧
      hasConv st (chatTurn st none msg answer).2 = false ∧
      historyOf (chatTurn st none msg answer).1 (chatTurn st none msg answer).2
        = [Turn.mk .user msg, Turn.mk .assistant answer]) ∧
    (∀ id, historyOf (chatTurn st (some id) m2 a2).1 id
        = historyOf st id ++ [Turn.mk .user m2, Turn.mk .assistant a2]) ∧
    (∀ id, historyOf (clearConv st id) id = [] ∧
      historyOf (chatTurn (clearConv st id) (some id) m2 a2).1 id
        = [Turn.mk .user m2, Turn.mk .assistant a2]) := by
  refine ⟨⟨?_, ?_, ?_⟩, ?_, ?_⟩
  · show freshId st.counter ≠ ""
    intro h
    have hd := congrArg String.data h
    simp [freshId] at hd
  · show hasConv st (freshId st.counter) = false
    rw [hasConv, ← Bool.not_eq_true, List.any_eq_true]
    rintro ⟨q, hq, hq2⟩
    obtain ⟨k, hk, hqk⟩ := hwf q hq
    have : freshId k = freshId st.counter := by
      rw [← hqk]
      exact of_decide_eq_true hq2
    exact absurd (freshId_injective this) (by omega)
  · exact historyOf_cons_self st (freshId st.counter) _ _
  · intro id
    exact historyOf_cons_self
      ⟨st.convs.filter fun q => !decide (q.1 = id), st.counter⟩ id _ _
  · intro id
    refine ⟨historyOf_filter_out st id, ?_⟩
    have h1 : historyOf (chatTurn (clearConv st id) (some id) m2 a2).1 id
        = historyOf (clearConv st id) id ++
          [Turn.mk .user m2, Turn.mk .assistant a2] :=
      historyOf_cons_self
        ⟨(clearConv st id).convs.filter fun q => !decide (q.1 = id),
          (clearConv st id).counter⟩ id _ _
    rw [h1, historyOf_filter_out st id, List.nil_append]

/-- Witness for C5 on the empty server: the first turn generates `"c"`,
appending works, and clearing then reusing the identifier restarts from the
empty history. -/
theorem conversation_lifecycle_witness :
    ((chatTurn ⟨[], 0⟩ none "hi" "hello").2 ≠ "" ∧
      hasConv ⟨[], 0⟩ (chatTurn ⟨[], 0⟩ none "hi" "hello").2 = false ∧
      historyOf (chatTurn ⟨[], 0⟩ none "hi" "hello").1
          (chatTurn ⟨[], 0⟩ none "hi" "hello").2
        = [Turn.mk .user "hi", Turn.mk .assistant "hello"]) ∧
    (∀ id, historyOf (chatTurn ⟨[], 0⟩ (some id) "m2" "a2").1 id
        = historyOf ⟨[], 0⟩ id ++ [Turn.mk .user "m2", Turn.mk .assistant "a2"]) ∧
    (∀ id, historyOf (clearConv ⟨[], 0⟩ id) id = [] ∧
      historyOf (chatTurn (clearConv ⟨[], 0⟩ id) (some id) "m2" "a2").1 id
        = [Turn.mk .user "m2", Turn.mk .assistant "a2"]) :=
  conversation_lifecycle ⟨[], 0⟩ "hi" "hello" "m2" "a2" (by simp)

/-! ## Chat client conversation identifier (`ChatInterface.jsx`)

Embedded from `frontend/src/components/ChatInterface.jsx`.  The component
keeps `conversationId` (initially `null`).  `handleSendMessage` adopts a
successful response's id only under
`if (response.conversation_id && !conversationId)`; an error leaves it
unchanged; `handleClearChat` sets it to `null`; `handleEditAndResend` sets it
to `null` only when the edit removes every earlier message
(`messageIndex === 0 || newMessages.length === 0`) and then resends. -/

/-- Events of `ChatInterface` that can touch `conversationId`: a send whose
response carries `rid`, a failed send, an explicit clear, and an
edit-and-resend whose response carries `rid` (`fromFirst` is whether the
edited message was the first one). -/
inductive ChatEvent where
  | sendOk (rid : String)
  | sendErr
  | clearChat
  | editResend (fromFirst : Bool) (rid : String)
deriving DecidableEq, Repr

/-- Transition of the stored `conversationId` on one event, as coded in
`ChatInterface.jsx` (`response.conversation_id && !conversationId` guards the
adoption; JavaScript truthiness makes an empty id falsy). -/
def chatStep (cid : Option String) : ChatEvent → Option String
  | .sendOk rid => if cid = none ∧ rid ≠ "" then some rid else cid
  | .sendErr => cid
  | .clearChat => none
  | .editResend fromFirst rid =>
    let c := if fromFirst then none else cid
    if c = none ∧ rid ≠ "" then some rid else c

/-- Whether an event is a plain send (successful or failed), with no clear
and no edit-and-resend. -/
def isSendEv : ChatEvent → Bool
  | .sendOk _ => true
  | .sendErr => true
  | _ => false

/-- C9: the stored conversation identifier is write-once between clears.
Once set, any sequence of sends leaves it unchanged (every request after the
first carries the same id); it becomes `null` only through an explicit clear
or an edit-and-resend from the first message; and a send from the unset
state adopts the (non-empty) response id. -/
theorem conversationId_write_once (x : String) (evs : List ChatEvent)
    (hsend : ∀ e ∈ evs, isSendEv e = true) :
    List.foldl chatStep (some x) evs = some x ∧
    (∀ cid, chatStep cid ChatEvent.clearChat = none) ∧
    (∀ cid e, chatStep cid e = none →
      cid = none ∨ e = ChatEvent.clearChat ∨
        ∃ rid, e = ChatEvent.editResend true rid) ∧
    (∀ rid, rid ≠ "" → chatStep none (ChatEvent.sendOk rid) = some rid) := by
  refine ⟨?_, fun cid => rfl, ?_, ?_⟩
  · induction evs with
    | nil => rfl
    | cons e rest ih =>
      have he := hsend e (List.mem_cons_self e rest)
      have hstep : chatStep (some x) e = some x := by
        cases e with
        | sendOk rid => simp [chatStep]
        | sendErr => rfl
        | clearChat => simp [isSendEv] at he
        | editResend b rid => simp [isSendEv] at he
      rw [List.foldl_cons, hstep]
      exact ih fun e2 h2 => hsend e2 (List.mem_cons_of_mem e h2)
  · intro cid e hnone
    cases e with
    | sendOk rid =>
      left
      by_cases hc : cid = none ∧ rid ≠ ""
      · rw [chatStep, if_pos hc] at hnone
        cases hnone
      · rw [chatStep, if_neg hc] at hnone
        exact hnone
    | sendErr => exact Or.inl hnone
    | clearChat => exact Or.inr (Or.inl rfl)
    | editResend b rid =>
      cases b with
      | true => exact Or.inr (Or.inr ⟨rid, rfl⟩)
      | false =>
        left
        rw [chatStep] at hnone
        simp only [Bool.false_eq_true, if_false] at hnone
        by_cases hc : cid = none ∧ rid ≠ ""
        · rw [if_pos hc] at hnone
          cases hnone
        · rw [if_neg hc] at hnone
          exact hnone
  · intro rid hr
    rw [chatStep, if_pos ⟨rfl, hr⟩]

/-- Witness for C9: starting from the adopted id `"abc"`, a successful send
and a failed send keep it; the remaining parts at the same instance. -/
theorem conversationId_write_once_witness :
    List.foldl chatStep (some "abc")
      [ChatEvent.sendOk "zzz", ChatEvent.sendErr] = some "abc" ∧
    (∀ cid, chatStep cid ChatEvent.clearChat = none) ∧
    (∀ cid e, chatStep cid e = none →
      cid = none ∨ e = ChatEvent.clearChat ∨
        ∃ rid, e = ChatEvent.editResend true rid) ∧
    (∀ rid, rid ≠ "" → chatStep none (ChatEvent.sendOk rid) = some rid) :=
  conversationId_write_once "abc" [ChatEvent.sendOk "zzz", ChatEvent.sendErr]
    (by intro e he; rcases List.mem_cons.mp he with rfl | he2
        · rfl
        · rcases List.mem_singleton.mp he2 with rfl
          rfl)

/-! ## Document list cleanup guard (`DocumentList`, `handleCleanup`)

Embedded from the document-management component (the file calling
`documentsApi.cleanupDeletedDocuments`).  `handleCleanup` reads
`stats.deleted || 0`; when it is zero it only shows an alert and returns —
no request is issued and no state changes.  Otherwise it asks for
confirmation and only then issues the DELETE and reloads the list. -/

/-- State of the document list component that `handleCleanup` can touch:
the documents, the displayed `deleted` stat (`none` when stats are missing)
and the current selection. -/
structure DocListState where
  documents : List String
  statsDeleted : Option ℕ
  selected : List String
deriving DecidableEq, Repr

/-- Requests the component can issue during cleanup. -/
inductive ApiReq where
  | cleanupDeleted
  | loadDocuments
deriving DecidableEq, Repr

/-- Embedded from `handleCleanup`: `deletedCount = stats.deleted || 0`; zero
means alert-and-return, an unconfirmed dialog means return; otherwise the
DELETE is issued and the list reloaded from the server (`serverDocs`,
`serverDeleted`), leaving the selection untouched. -/
def handleCleanup (st : DocListState) (confirmed : Bool)
    (serverDocs : List String) (serverDeleted : Option ℕ) :
    List ApiReq × DocListState :=
  if st.statsDeleted.getD 0 = 0 then ([], st)
  else if !confirmed then ([], st)
  else ([ApiReq.cleanupDeleted, ApiReq.loadDocuments],
    { documents := serverDocs, statsDeleted := serverDeleted
      selected := st.selected })

/-- C10: when the displayed deleted-count is zero or missing, `handleCleanup`
issues no request and leaves documents, stats and selection unchanged; the
cleanup DELETE is issued only when the count is positive and the user
confirmed; and cleanup never touches the selection. -/
theorem handleCleanup_guard (st : DocListState) (confirmed : Bool)
    (serverDocs : List String) (serverDeleted : Option ℕ) :
    (st.statsDeleted.getD 0 = 0 →
      handleCleanup st confirmed serverDocs serverDeleted = ([], st)) ∧
    (ApiReq.cleanupDeleted ∈
        (handleCleanup st confirmed serverDocs serverDeleted).1 →
      0 < st.statsDeleted.getD 0 ∧ confirmed = true) ∧
    (handleCleanup st confirmed serverDocs serverDeleted).2.selected
      = st.selected := by
  refine ⟨?_, ?_, ?_⟩
  · intro hz
    rw [handleCleanup, if_pos hz]
  · intro hmem
    by_cases hz : st.statsDeleted.getD 0 = 0
    · rw [handleCleanup, if_pos hz] at hmem
      simp at hmem
    · cases confirmed with
      | false =>
        rw [handleCleanup, if_neg hz] at hmem
        simp at hmem
      | true => exact ⟨Nat.pos_of_ne_zero hz, rfl⟩
  · rw [handleCleanup]
    by_cases hz : st.statsDeleted.getD 0 = 0
    · rw [if_pos hz]
    · rw [if_neg hz]
      cases confirmed with
      | false => rfl
      | true => rfl

end CoolRag
